import Mathlib

/-!
Verification of the password-credential hashing module of `goidp`
(package `authn`): a shallow embedding of `GenerateHash`,
`VerifyPassword`, the Argon2id/bcrypt encoders, decoders and verifiers,
and the constant-time comparison they rely on.

Strings are modelled as `List Char`; bytes as `Nat` (values `< 256`);
`(value, error)` returns as pairs with `Option (List Char)` errors; a
`log.Fatal`/`log.Fatalf` call (which terminates the whole process in Go)
is modelled by the `Outcome.fatal` constructor.  The external
cryptographic primitives (`argon2.IDKey`, `bcrypt.GenerateFromPassword`,
`bcrypt.CompareHashAndPassword`) are not part of this repository and are
taken as explicit function parameters; configuration reads
(`configureArgon2id`, `configureBcrypt`) and the random salt are likewise
passed in as inputs.
-/

namespace Goidp

/-- Character-level model of Go's `strings.Split(s, sep)` for a
one-character separator: the result is never empty and joining it back
with `sep` recovers `s`. -/
def splitOnChar (sep : Char) : List Char → List (List Char)
  | [] => [[]]
  | c :: rest =>
    if c = sep then [] :: splitOnChar sep rest
    else
      match splitOnChar sep rest with
      | [] => [[c]]
      | h :: t => (c :: h) :: t

theorem splitOnChar_ne_nil (sep : Char) (s : List Char) : splitOnChar sep s ≠ [] := by
  induction s with
  | nil => simp [splitOnChar]
  | cons c rest ih =>
    simp only [splitOnChar]
    by_cases h : c = sep
    · simp [h]
    · simp only [if_neg h]
      cases hs : splitOnChar sep rest <;> simp

theorem splitOnChar_of_not_mem (sep : Char) (l : List Char) (h : sep ∉ l) :
    splitOnChar sep l = [l] := by
  induction l with
  | nil => rfl
  | cons c rest ih =>
    simp only [List.mem_cons, not_or] at h
    simp only [splitOnChar]
    rw [if_neg (fun hc => h.1 hc.symm), ih h.2]

theorem splitOnChar_append_sep (sep : Char) (l r : List Char) (h : sep ∉ l) :
    splitOnChar sep (l ++ sep :: r) = l :: splitOnChar sep r := by
  induction l with
  | nil => simp [splitOnChar]
  | cons c rest ih =>
    simp only [List.mem_cons, not_or] at h
    simp only [List.cons_append, splitOnChar]
    rw [if_neg (fun hc => h.1 hc.symm)]
    rw [show rest.append (sep :: r) = rest ++ sep :: r from rfl, ih h.2]

/-- Character of a decimal digit, as `fmt.Sprintf("%d", _)` emits it. -/
def digitChar (d : Nat) : Char :=
  Char.ofNat (48 + d % 10)

/-- Fuel-driven decimal printer: `natToCharsAux fuel n acc` prepends the
decimal digits of `n` to `acc`, mirroring the digit loop of Go's
`strconv`/`fmt` integer formatting.  `fuel ≥ n` suffices. -/
def natToCharsAux : Nat → Nat → List Char → List Char
  | 0, _, acc => acc
  | fuel + 1, n, acc =>
    if n = 0 then acc else natToCharsAux fuel (n / 10) (digitChar (n % 10) :: acc)

/-- Decimal representation of a natural number, as `%d` formats it. -/
def natToChars (n : Nat) : List Char :=
  if n = 0 then ['0'] else natToCharsAux n n []

theorem natToCharsAux_extra (f₁ f₂ n : Nat) (acc : List Char)
    (h₁ : n ≤ f₁) (h₂ : n ≤ f₂) :
    natToCharsAux f₁ n acc = natToCharsAux f₂ n acc := by
  induction f₁ generalizing f₂ n acc with
  | zero =>
    interval_cases n
    cases f₂ <;> simp [natToCharsAux]
  | succ f₁ ih =>
    cases f₂ with
    | zero =>
      interval_cases n
      simp [natToCharsAux]
    | succ f₂ =>
      simp only [natToCharsAux]
      by_cases hn : n = 0
      · simp [hn]
      · rw [if_neg hn, if_neg hn]
        exact ih _ _ _ (by omega) (by omega)

theorem natToCharsAux_acc (fuel n : Nat) (acc : List Char) :
    natToCharsAux fuel n acc = natToCharsAux fuel n [] ++ acc := by
  induction fuel generalizing n acc with
  | zero => simp [natToCharsAux]
  | succ fuel ih =>
    simp only [natToCharsAux]
    by_cases hn : n = 0
    · simp [hn]
    · rw [if_neg hn, if_neg hn, ih (n / 10), ih (n / 10) [digitChar (n % 10)]]
      simp

theorem natToChars_small (n : Nat) (h0 : 0 < n) (h : n < 10) :
    natToChars n = [digitChar n] := by
  unfold natToChars
  rw [if_neg (by omega)]
  cases n with
  | zero => omega
  | succ m =>
    simp only [natToCharsAux, if_neg (Nat.succ_ne_zero m)]
    rw [Nat.div_eq_of_lt h, Nat.mod_eq_of_lt h]
    cases m <;> simp [natToCharsAux]

theorem natToChars_step (n : Nat) (h : 10 ≤ n) :
    natToChars n = natToChars (n / 10) ++ [digitChar (n % 10)] := by
  unfold natToChars
  rw [if_neg (by omega), if_neg (by omega)]
  cases n with
  | zero => omega
  | succ m =>
    simp only [natToCharsAux, if_neg (Nat.succ_ne_zero m)]
    rw [natToCharsAux_acc]
    congr 1
    exact natToCharsAux_extra m ((m + 1) / 10) ((m + 1) / 10) [] (by omega) le_rfl

theorem digitChar_isDigit (d : Nat) : (digitChar d).isDigit = true := by
  unfold digitChar
  have h : d % 10 < 10 := Nat.mod_lt _ (by omega)
  interval_cases h' : d % 10 <;> decide

theorem natToChars_all_digits (n : Nat) : ∀ c ∈ natToChars n, c.isDigit = true := by
  induction n using Nat.strong_induction_on with
  | _ n ih =>
    by_cases h0 : n = 0
    · subst h0; intro c hc; simp [natToChars] at hc; subst hc; decide
    · by_cases h : n < 10
      · rw [natToChars_small n (by omega) h]
        intro c hc
        simp at hc; subst hc
        exact digitChar_isDigit n
      · rw [natToChars_step n (by omega)]
        intro c hc
        rcases List.mem_append.mp hc with hc | hc
        · exact ih (n / 10) (by omega) c hc
        · simp at hc; subst hc; exact digitChar_isDigit (n % 10)

theorem natToChars_ne_nil (n : Nat) : natToChars n ≠ [] := by
  by_cases h0 : n = 0
  · subst h0; simp [natToChars]
  · by_cases h : n < 10
    · rw [natToChars_small n (by omega) h]; simp
    · rw [natToChars_step n (by omega)]; simp

/-- Numeric value of a decimal digit character. -/
def digitVal (c : Char) : Nat :=
  c.toNat - 48

/-- Accumulate a decimal number from its big-endian digit characters, as
`fmt.Sscanf`'s `%d` verb does while scanning. -/
def digitsToNat (l : List Char) : Nat :=
  l.foldl (fun a c => a * 10 + digitVal c) 0

/-- Longest leading run of decimal digits, together with the rest of the
input: the scanning discipline of a `%d` conversion. -/
def takeDigits : List Char → List Char × List Char
  | [] => ([], [])
  | c :: rest =>
    if c.isDigit then
      match takeDigits rest with
      | (d, r) => (c :: d, r)
    else ([], c :: rest)

/-- Model of the `%d` verb: reads at least one decimal digit, returns the
value and the unconsumed input, fails when no digit is present. -/
def parseNum (s : List Char) : Option (Nat × List Char) :=
  match takeDigits s with
  | ([], _) => none
  | (d, r) => some (digitsToNat d, r)

/-- Strips an expected literal from the front of the input, the way
`fmt.Sscanf` matches the literal characters of its format string. -/
def stripLit : List Char → List Char → Option (List Char)
  | [], s => some s
  | _, [] => none
  | l :: ls, c :: cs => if l = c then stripLit ls cs else none

theorem digitVal_digitChar (d : Nat) (h : d < 10) : digitVal (digitChar d) = d := by
  interval_cases d <;> decide

theorem digitsToNat_append (a b : List Char) :
    digitsToNat (a ++ b) = b.foldl (fun x c => x * 10 + digitVal c) (digitsToNat a) := by
  unfold digitsToNat
  exact List.foldl_append _ _ a b

theorem digitsToNat_natToChars (n : Nat) : digitsToNat (natToChars n) = n := by
  induction n using Nat.strong_induction_on with
  | _ n ih =>
    by_cases h0 : n = 0
    · subst h0; decide
    · by_cases h : n < 10
      · rw [natToChars_small n (by omega) h]
        simp [digitsToNat, digitVal_digitChar n h]
      · rw [natToChars_step n (by omega), digitsToNat_append, ih (n / 10) (by omega)]
        simp [List.foldl, digitVal_digitChar (n % 10) (Nat.mod_lt _ (by omega))]
        omega

theorem takeDigits_append (l r : List Char)
    (hl : ∀ c ∈ l, c.isDigit = true)
    (hr : match r with | [] => True | c :: _ => c.isDigit = false) :
    takeDigits (l ++ r) = (l, r) := by
  induction l with
  | nil =>
    cases r with
    | nil => rfl
    | cons c rest =>
      simp only [List.nil_append, takeDigits]
      simp at hr
      simp [hr]
  | cons c rest ih =>
    simp only [List.cons_append, takeDigits]
    rw [if_pos (hl c (by simp))]
    rw [show rest.append r = rest ++ r from rfl, ih (fun x hx => hl x (by simp [hx]))]

theorem parseNum_append (n : Nat) (r : List Char)
    (hr : match r with | [] => True | c :: _ => c.isDigit = false) :
    parseNum (natToChars n ++ r) = some (n, r) := by
  unfold parseNum
  rw [takeDigits_append (natToChars n) r (natToChars_all_digits n) hr]
  have hne := natToChars_ne_nil n
  cases h : natToChars n with
  | nil => exact absurd h hne
  | cons c cs =>
    simp only []
    rw [← h, digitsToNat_natToChars n]

theorem stripLit_append (l s : List Char) : stripLit l (l ++ s) = some s := by
  induction l with
  | nil => simp [stripLit]
  | cons c rest ih => simp [stripLit, ih]

/-- Standard base64 alphabet used by Go's `base64.RawStdEncoding`. -/
def b64Alphabet : List Char :=
  "ABCDEFGHIJKLMNOPQRSTUVWXYZabcdefghijklmnopqrstuvwxyz0123456789+/".toList

/-- Character for a six-bit group. -/
def b64Char (n : Nat) : Char :=
  b64Alphabet.getD n 'A'

def b64ValAux : List Char → Nat → Char → Option Nat
  | [], _, _ => none
  | a :: rest, i, c => if a = c then some i else b64ValAux rest (i + 1) c

/-- Six-bit value of an alphabet character; `none` on a character outside
the alphabet (the `CorruptInputError` case of Go's strict decoder). -/
def b64Val (c : Char) : Option Nat :=
  b64ValAux b64Alphabet 0 c

/-- Unpadded standard base64 encoding of a byte sequence, as
`base64.RawStdEncoding.EncodeToString` produces it: three bytes become
four characters, a two-byte tail three characters, a one-byte tail two
characters, no `=` padding. -/
def encodeB64 : List Nat → List Char
  | [] => []
  | [a] => [b64Char (a / 4), b64Char (a % 4 * 16)]
  | [a, b] => [b64Char (a / 4), b64Char (a % 4 * 16 + b / 16), b64Char (b % 16 * 4)]
  | a :: b :: d :: rest =>
    b64Char (a / 4) :: b64Char (a % 4 * 16 + b / 16) ::
      b64Char (b % 16 * 4 + d / 64) :: b64Char (d % 64) :: encodeB64 rest

/-- Looks every character up in the alphabet, failing on the first one
outside it. -/
def b64Vals : List Char → Option (List Nat)
  | [] => some []
  | c :: rest =>
    match b64Val c, b64Vals rest with
    | some v, some vs => some (v :: vs)
    | _, _ => none

/-- Reassembles bytes from six-bit groups.  A single trailing group is
malformed; in two- and three-group tails the unused low bits must be
zero, which is exactly the extra check `base64.RawStdEncoding.Strict()`
performs. -/
def b64Combine : List Nat → Option (List Nat)
  | [] => some []
  | [_] => none
  | [x, y] => if y % 16 = 0 then some [x * 4 + y / 16] else none
  | [x, y, z] =>
    if z % 4 = 0 then some [x * 4 + y / 16, y % 16 * 16 + z / 4] else none
  | x :: y :: z :: w :: rest =>
    match b64Combine rest with
    | none => none
    | some bs => some ((x * 4 + y / 16) :: (y % 16 * 16 + z / 4) :: (z % 4 * 64 + w) :: bs)

/-- Model of `base64.RawStdEncoding.Strict().DecodeString`. -/
def decodeB64 (s : List Char) : Option (List Nat) :=
  (b64Vals s).bind b64Combine

theorem b64Char_mem (k : Nat) : b64Char k ∈ b64Alphabet := by
  unfold b64Char
  by_cases h : k < b64Alphabet.length
  · rw [List.getD_eq_getElem b64Alphabet 'A' h]
    exact List.getElem_mem h
  · rw [List.getD_eq_default b64Alphabet 'A' (by omega)]
    decide

theorem b64Char_ne_dollar (k : Nat) : b64Char k ≠ '$' := by
  intro h
  have := b64Char_mem k
  rw [h] at this
  revert this
  decide

theorem b64Val_b64Char (k : Nat) (h : k < 64) : b64Val (b64Char k) = some k := by
  revert h
  revert k
  decide

theorem encodeB64_chars (bs : List Nat) : ∀ c ∈ encodeB64 bs, ∃ k, c = b64Char k := by
  induction bs using encodeB64.induct with
  | case1 => intro c hc; simp [encodeB64] at hc
  | case2 a =>
    intro c hc
    simp only [encodeB64, List.mem_cons, List.not_mem_nil, or_false] at hc
    rcases hc with rfl | rfl
    · exact ⟨_, rfl⟩
    · exact ⟨_, rfl⟩
  | case3 a b =>
    intro c hc
    simp only [encodeB64, List.mem_cons, List.not_mem_nil, or_false] at hc
    rcases hc with rfl | rfl | rfl
    · exact ⟨_, rfl⟩
    · exact ⟨_, rfl⟩
    · exact ⟨_, rfl⟩
  | case4 a b d rest ih =>
    intro c hc
    simp only [encodeB64, List.mem_cons] at hc
    rcases hc with rfl | rfl | rfl | rfl | hc
    · exact ⟨_, rfl⟩
    · exact ⟨_, rfl⟩
    · exact ⟨_, rfl⟩
    · exact ⟨_, rfl⟩
    · exact ih c hc

theorem encodeB64_no_dollar (bs : List Nat) : '$' ∉ encodeB64 bs := by
  intro h
  obtain ⟨k, hk⟩ := encodeB64_chars bs '$' h
  exact b64Char_ne_dollar k hk.symm

theorem decodeB64_encodeB64 (bs : List Nat) (h : ∀ b ∈ bs, b < 256) :
    decodeB64 (encodeB64 bs) = some bs := by
  induction bs using encodeB64.induct with
  | case1 => rfl
  | case2 a =>
    have ha : a < 256 := h a (by simp)
    simp only [encodeB64, decodeB64, b64Vals,
      b64Val_b64Char (a / 4) (by omega),
      b64Val_b64Char (a % 4 * 16) (by omega)]
    simp only [Option.some_bind, b64Combine]
    rw [if_pos (by omega)]
    congr 2
    omega
  | case3 a b =>
    have ha : a < 256 := h a (by simp)
    have hb : b < 256 := h b (by simp)
    simp only [encodeB64, decodeB64, b64Vals,
      b64Val_b64Char (a / 4) (by omega),
      b64Val_b64Char (a % 4 * 16 + b / 16) (by omega),
      b64Val_b64Char (b % 16 * 4) (by omega)]
    simp only [Option.some_bind, b64Combine]
    rw [if_pos (by omega)]
    congr 1
    congr 2
    · omega
    · omega
  | case4 a b d rest ih =>
    have ha : a < 256 := h a (by simp)
    have hb : b < 256 := h b (by simp)
    have hd : d < 256 := h d (by simp)
    have hrest : decodeB64 (encodeB64 rest) = some rest :=
      ih (fun x hx => h x (by simp [hx]))
    unfold decodeB64 at hrest
    cases hvals : b64Vals (encodeB64 rest) with
    | none => rw [hvals] at hrest; simp at hrest
    | some vs =>
      rw [hvals] at hrest
      simp only [Option.some_bind] at hrest
      simp only [encodeB64, decodeB64, b64Vals,
        b64Val_b64Char (a / 4) (by omega),
        b64Val_b64Char (a % 4 * 16 + b / 16) (by omega),
        b64Val_b64Char (b % 16 * 4 + d / 64) (by omega),
        b64Val_b64Char (d % 64) (by omega), hvals]
      simp only [Option.some_bind, b64Combine, hrest]
      have e1 : a / 4 * 4 + (a % 4 * 16 + b / 16) / 16 = a := by omega
      have e2 : (a % 4 * 16 + b / 16) % 16 * 16 + (b % 16 * 4 + d / 64) / 4 = b := by omega
      have e3 : (b % 16 * 4 + d / 64) % 4 * 64 + d % 64 = d := by omega
      rw [e1, e2, e3]

/-- Model of Go's `subtle.ConstantTimeByteEq`: 1 when the two bytes are
equal, 0 otherwise. -/
def constantTimeByteEq (x y : Nat) : Nat :=
  if x = y then 1 else 0

/-- Accumulator loop of `subtle.ConstantTimeCompare`: ors together the
xor of every byte pair, touching each position exactly once with no
early exit. -/
def ctLoop : Nat → List Nat → List Nat → Nat
  | v, a :: as, b :: bs => ctLoop (v ||| (a ^^^ b)) as bs
  | v, _, _ => v

/-- Model of `subtle.ConstantTimeCompare`: 0 straight away when the
lengths differ, otherwise the byte-eq of the accumulated xor with 0. -/
def constantTimeCompare (x y : List Nat) : Nat :=
  if x.length = y.length then constantTimeByteEq (ctLoop 0 x y) 0 else 0

/-- Instrumented variant of `ctLoop` that also counts the number of loop
iterations performed, as a cost model for execution time. -/
def ctLoopCount : Nat → Nat → List Nat → List Nat → Nat × Nat
  | v, k, a :: as, b :: bs => ctLoopCount (v ||| (a ^^^ b)) (k + 1) as bs
  | v, k, _, _ => (v, k)

theorem nat_or_eq_zero (a b : Nat) : a ||| b = 0 ↔ a = 0 ∧ b = 0 := by
  constructor
  · intro h
    constructor
    · apply Nat.zero_of_testBit_eq_false
      intro i
      have := congrArg (fun n => Nat.testBit n i) h
      simp [Nat.testBit_lor] at this
      exact this.1
    · apply Nat.zero_of_testBit_eq_false
      intro i
      have := congrArg (fun n => Nat.testBit n i) h
      simp [Nat.testBit_lor] at this
      exact this.2
  · rintro ⟨rfl, rfl⟩; rfl

theorem ctLoop_eq_zero_iff (x y : List Nat) (v : Nat) (h : x.length = y.length) :
    ctLoop v x y = 0 ↔ v = 0 ∧ x = y := by
  induction x generalizing y v with
  | nil =>
    cases y with
    | nil => simp [ctLoop]
    | cons b bs => simp at h
  | cons a as ih =>
    cases y with
    | nil => simp at h
    | cons b bs =>
      simp only [List.length_cons, Nat.add_right_cancel_iff] at h
      simp only [ctLoop, ih bs _ h, nat_or_eq_zero, Nat.xor_eq_zero, List.cons.injEq]
      tauto

theorem constantTimeCompare_eq_one_iff (x y : List Nat) :
    constantTimeCompare x y = 1 ↔ x = y := by
  unfold constantTimeCompare constantTimeByteEq
  by_cases h : x.length = y.length
  · rw [if_pos h]
    by_cases hz : ctLoop 0 x y = 0
    · rw [if_pos hz]
      have := (ctLoop_eq_zero_iff x y 0 h).mp hz
      simp [this.2]
    · rw [if_neg hz]
      constructor
      · omega
      · intro hxy
        exact absurd ((ctLoop_eq_zero_iff x y 0 h).mpr ⟨rfl, hxy⟩) hz
  · rw [if_neg h]
    constructor
    · omega
    · intro hxy
      exact absurd (congrArg List.length hxy) h

theorem ctLoopCount_count (x y : List Nat) (v k : Nat) (h : x.length = y.length) :
    (ctLoopCount v k x y).2 = k + x.length := by
  induction x generalizing y v k with
  | nil =>
    cases y with
    | nil => simp [ctLoopCount]
    | cons b bs => simp at h
  | cons a as ih =>
    cases y with
    | nil => simp at h
    | cons b bs =>
      simp only [List.length_cons, Nat.add_right_cancel_iff] at h
      simp only [ctLoopCount, ih bs _ _ h, List.length_cons]
      omega

theorem ctLoopCount_fst (x y : List Nat) (v k : Nat) :
    (ctLoopCount v k x y).1 = ctLoop v x y := by
  induction x generalizing y v k with
  | nil => cases y <;> simp [ctLoopCount, ctLoop]
  | cons a as ih =>
    cases y with
    | nil => simp [ctLoopCount, ctLoop]
    | cons b bs => simp only [ctLoopCount, ctLoop, ih]

/-- Result of a Go function that may instead terminate the whole process
through `log.Fatal`/`log.Fatalf`. -/
inductive Outcome (α : Type) where
  | ok : α → Outcome α
  | fatal : List Char → Outcome α
deriving DecidableEq

/-- Mirror of the source's `argon2Params` struct.  `memory`, `iterations`,
`saltLength` and `keyLength` are `uint32` and `parallelism` is `uint8` in
Go; they are carried as `Nat` here, with the range checks placed where the
source's scanning performs them. -/
structure Argon2Params where
  memory : Nat
  iterations : Nat
  parallelism : Nat
  saltLength : Nat
  keyLength : Nat
deriving DecidableEq

/-- Zero value `argon2Params{}`. -/
def emptyArgon2Params : Argon2Params :=
  ⟨0, 0, 0, 0, 0⟩

/-- Supported Argon2 version (`argon2.Version` = 19). -/
def argon2Version : Nat := 19

/-- Signature of `argon2.IDKey(password, salt, time, memory, threads,
keyLen)`, the external derivation primitive, taken as a parameter. -/
abbrev IdKeyFun : Type :=
  List Char → List Nat → Nat → Nat → Nat → Nat → List Nat

/-- Signature of the external `bcrypt.GenerateFromPassword` primitive
(password and cost to hash bytes; its internal random salt makes the
concrete Go function non-deterministic, abstracted here). -/
abbrev BcryptGenFun : Type :=
  List Char → Nat → List Nat

/-- Signature of the external `bcrypt.CompareHashAndPassword` primitive:
`none` on match, an error on mismatch or invalid hash. -/
abbrev BcryptCompareFun : Type :=
  List Nat → List Char → Option (List Char)

def errInvalidEncoding : List Char := "invalid encoding on hash".toList

def errInvalidOptions : List Char := "invalid options encoding on hash".toList

def errSscanf : List Char := "input does not match format".toList

def errIncompatibleVersion : List Char := "incompatible Argon2 version".toList

def errBase64 : List Char := "illegal base64 data".toList

def errInvalidPassword : List Char := "invalid password".toList

/-- Message of `log.Fatalf("Algorithm %s is not supported.\n", algo)`. -/
def fatalUnsupported (algo : List Char) : List Char :=
  "Algorithm ".toList ++ algo ++ " is not supported.".toList

/-- Model of the `fmt.Sscanf(vals[2], "v=%d,m=%d,t=%d,p=%d", ...)` call:
literal matching interleaved with `%d` conversions, with the out-of-range
failures of scanning into `int` (version), `uint32` (memory, iterations)
and `uint8` (parallelism); trailing input after the last conversion is
ignored, as `Sscanf` ignores it. -/
def scanParams (s : List Char) : Option (Nat × Nat × Nat × Nat) :=
  (stripLit "v=".toList s).bind fun s1 =>
  (parseNum s1).bind fun vr =>
  if 2 ^ 63 ≤ vr.1 then none else
  (stripLit ",m=".toList vr.2).bind fun s3 =>
  (parseNum s3).bind fun mr =>
  if 2 ^ 32 ≤ mr.1 then none else
  (stripLit ",t=".toList mr.2).bind fun s5 =>
  (parseNum s5).bind fun tr =>
  if 2 ^ 32 ≤ tr.1 then none else
  (stripLit ",p=".toList tr.2).bind fun s7 =>
  (parseNum s7).bind fun pr =>
  if 2 ^ 8 ≤ pr.1 then none else some (vr.1, mr.1, tr.1, pr.1)

/-- Embedding of `decodeArgon2idHash`: split on `$` into exactly 5
fields, split the option field on `,` into exactly 4 options, scan the
version and parameters, gate on the Argon2 version, then strict-base64
decode salt and hash, deriving `saltLength`/`keyLength` from the decoded
byte lengths.  Error paths return the same zero/partial values the Go
code returns (on a scan error the source may leave some fields of
`params` partially written by `Sscanf`; no claim inspects them, and they
are returned zeroed here). -/
def decodeArgon2idHash (enc : List Char) :
    Argon2Params × List Nat × List Nat × Option (List Char) :=
  let vals := splitOnChar '$' enc
  if vals.length ≠ 5 then (emptyArgon2Params, [], [], some errInvalidEncoding)
  else
    let opts := splitOnChar ',' (vals.getD 2 [])
    if opts.length ≠ 4 then (emptyArgon2Params, [], [], some errInvalidOptions)
    else
      match scanParams (vals.getD 2 []) with
      | none => (emptyArgon2Params, [], [], some errSscanf)
      | some (version, m, t, p) =>
        if version ≠ argon2Version then
          (emptyArgon2Params, [], [], some errIncompatibleVersion)
        else
          match decodeB64 (vals.getD 3 []) with
          | none => (⟨m, t, p, 0, 0⟩, [], [], some errBase64)
          | some salt =>
            match decodeB64 (vals.getD 4 []) with
            | none => (⟨m, t, p, salt.length, 0⟩, salt, [], some errBase64)
            | some hash =>
              (⟨m, t, p, salt.length, hash.length⟩, salt, hash, none)

/-- Embedding of `decodeBcryptHash`.  On a field count other than 4 the
Go code logs and executes `return []byte{}, err` — but `err`, the named
return value, has never been assigned there, so the error returned is
`nil`; the embedding reproduces that faithfully. -/
def decodeBcryptHash (enc : List Char) : List Nat × Option (List Char) :=
  let vals := splitOnChar '$' enc
  if vals.length ≠ 4 then ([], none)
  else
    match decodeB64 (vals.getD 3 []) with
    | none => ([], some errBase64)
    | some hash => (hash, none)

/-- Parameter field of the Argon2id encoding, as the
`"v=%d,m=%d,t=%d,p=%d"` portion of the `fmt.Sprintf` format renders
it. -/
def argonParamString (m t p : Nat) : List Char :=
  "v=".toList ++ natToChars argon2Version ++ ",m=".toList ++ natToChars m ++
    ",t=".toList ++ natToChars t ++ ",p=".toList ++ natToChars p

/-- Embedding of `generateArgon2idHash`, with the configured parameters
and the freshly drawn random salt passed in (the source reads them from
the environment and `crypto/rand` respectively). -/
def generateArgon2idHash (idKey : IdKeyFun) (params : Argon2Params)
    (salt : List Nat) (password : List Char) : List Char :=
  let hash := idKey password salt params.iterations params.memory
    params.parallelism params.keyLength
  ['$'] ++ "argon2id".toList ++ ['$'] ++
    argonParamString params.memory params.iterations params.parallelism ++
    ['$'] ++ encodeB64 salt ++ ['$'] ++ encodeB64 hash

/-- Embedding of `generateBcryptHash`, with the configured cost passed
in. -/
def generateBcryptHash (bgen : BcryptGenFun) (cost : Nat)
    (password : List Char) : List Char :=
  ['$'] ++ "bcrypt".toList ++ ['$'] ++ "c=".toList ++ natToChars cost ++
    ['$'] ++ encodeB64 (bgen password cost)

/-- Embedding of `verifyArgon2idHash`: a decode error is passed to
`log.Fatal` (process termination), a successful decode re-derives the key
with the decoded parameters and salt and compares with
`subtle.ConstantTimeCompare`; a mismatch returns
`(false, errors.New("invalid password"))`. -/
def verifyArgon2idHash (idKey : IdKeyFun) (password enc : List Char) :
    Outcome (Bool × Option (List Char)) :=
  match decodeArgon2idHash enc with
  | (_, _, _, some e) => Outcome.fatal e
  | (params, salt, hash, none) =>
    let verification := idKey password salt params.iterations params.memory
      params.parallelism params.keyLength
    if constantTimeCompare hash verification = 1 then Outcome.ok (true, none)
    else Outcome.ok (false, some errInvalidPassword)

/-- Embedding of `verifyBcryptHash`: a decode error is only logged (the
decoded value — the empty slice — is still used); the bcrypt primitive's
error is returned with `false`, otherwise `(true, nil)`. -/
def verifyBcryptHash (bcompare : BcryptCompareFun) (password enc : List Char) :
    Bool × Option (List Char) :=
  let hash := (decodeBcryptHash enc).1
  match bcompare hash password with
  | some e => (false, some e)
  | none => (true, none)

/-- Embedding of `GenerateHash`: the `hashFuncs` map lookup, with a
`log.Fatalf` (process termination) when the algorithm is not a key of the
map.  Password hashing always succeeds in this model because the random
salt is an input. -/
def GenerateHash (idKey : IdKeyFun) (bgen : BcryptGenFun)
    (params : Argon2Params) (cost : Nat) (salt : List Nat)
    (algo password : List Char) : Outcome (List Char × Option (List Char)) :=
  if algo = "argon2id".toList then
    Outcome.ok (generateArgon2idHash idKey params salt password, none)
  else if algo = "bcrypt".toList then
    Outcome.ok (generateBcryptHash bgen cost password, none)
  else Outcome.fatal (fatalUnsupported algo)

/-- Embedding of `VerifyPassword`: split on `$`; with more than two
fields, look the second field up in `verifyFuncs` (a `log.Fatalf` when it
is not a key) and delegate; with two or fewer fields, return
`(false, nil)`. -/
def VerifyPassword (idKey : IdKeyFun) (bcompare : BcryptCompareFun)
    (password enc : List Char) : Outcome (Bool × Option (List Char)) :=
  let vals := splitOnChar '$' enc
  if 2 < vals.length then
    let algo := vals.getD 1 []
    if algo = "argon2id".toList then verifyArgon2idHash idKey password enc
    else if algo = "bcrypt".toList then
      Outcome.ok (verifyBcryptHash bcompare password enc)
    else Outcome.fatal (fatalUnsupported algo)
  else Outcome.ok (false, none)

/-- Concrete stand-in for `argon2.IDKey` used to instantiate witnesses:
returns `keyLength` copies of a byte derived from the password. -/
def idKey0 : IdKeyFun :=
  fun password _ _ _ _ keyLength => List.replicate keyLength (password.length % 256)

/-- Concrete stand-in for `bcrypt.GenerateFromPassword` used in
witnesses. -/
def bgen0 : BcryptGenFun :=
  fun password cost => [cost % 256, password.length % 256]

/-- Concrete stand-in for `bcrypt.CompareHashAndPassword` used in
witnesses, consistent with `bgen0`. -/
def bcompare0 : BcryptCompareFun :=
  fun hash password =>
    if hash.length = 2 ∧ hash.getD 1 0 = password.length % 256 then none
    else some "hashedPassword is not the hash of the given password".toList

theorem isDigit_ne_dollar (c : Char) (h : c.isDigit = true) : c ≠ '$' := by
  intro heq
  rw [heq] at h
  exact absurd h (by decide)

theorem isDigit_ne_comma (c : Char) (h : c.isDigit = true) : c ≠ ',' := by
  intro heq
  rw [heq] at h
  exact absurd h (by decide)

theorem dollar_not_mem_natToChars (n : Nat) : '$' ∉ natToChars n := by
  intro h
  exact isDigit_ne_dollar '$' (natToChars_all_digits n '$' h) rfl

theorem comma_not_mem_natToChars (n : Nat) : ',' ∉ natToChars n := by
  intro h
  exact isDigit_ne_comma ',' (natToChars_all_digits n ',' h) rfl

theorem dollar_not_mem_paramString (m t p : Nat) :
    '$' ∉ argonParamString m t p := by
  simp only [argonParamString, List.mem_append, not_or]
  refine ⟨⟨⟨⟨⟨⟨⟨?_, ?_⟩, ?_⟩, ?_⟩, ?_⟩, ?_⟩, ?_⟩, ?_⟩
  · decide
  · exact dollar_not_mem_natToChars _
  · decide
  · exact dollar_not_mem_natToChars _
  · decide
  · exact dollar_not_mem_natToChars _
  · decide
  · exact dollar_not_mem_natToChars _

theorem generateArgon2idHash_split (idKey : IdKeyFun) (params : Argon2Params)
    (salt : List Nat) (password : List Char) :
    splitOnChar '$' (generateArgon2idHash idKey params salt password) =
      [[], "argon2id".toList,
        argonParamString params.memory params.iterations params.parallelism,
        encodeB64 salt,
        encodeB64 (idKey password salt params.iterations params.memory
          params.parallelism params.keyLength)] := by
  unfold generateArgon2idHash
  have h1 : (['$'] ++ "argon2id".toList ++ ['$'] ++
      argonParamString params.memory params.iterations params.parallelism ++
      ['$'] ++ encodeB64 salt ++ ['$'] ++ encodeB64 (idKey password salt
        params.iterations params.memory params.parallelism params.keyLength)) =
      '$' :: ("argon2id".toList ++ '$' ::
        (argonParamString params.memory params.iterations params.parallelism ++
          '$' :: (encodeB64 salt ++ '$' :: encodeB64 (idKey password salt
            params.iterations params.memory params.parallelism
            params.keyLength)))) := by
    simp [List.append_assoc]
  rw [h1]
  have hstep : ∀ r : List Char, splitOnChar '$' ('$' :: r) = [] :: splitOnChar '$' r := by
    intro r
    simp [splitOnChar]
  rw [hstep]
  rw [splitOnChar_append_sep '$' "argon2id".toList _ (by decide)]
  rw [splitOnChar_append_sep '$' _ _ (dollar_not_mem_paramString _ _ _)]
  rw [splitOnChar_append_sep '$' _ _ (encodeB64_no_dollar salt)]
  rw [splitOnChar_of_not_mem '$' _ (encodeB64_no_dollar _)]

theorem generateBcryptHash_split (bgen : BcryptGenFun) (cost : Nat)
    (password : List Char) :
    splitOnChar '$' (generateBcryptHash bgen cost password) =
      [[], "bcrypt".toList, "c=".toList ++ natToChars cost,
        encodeB64 (bgen password cost)] := by
  unfold generateBcryptHash
  have h1 : (['$'] ++ "bcrypt".toList ++ ['$'] ++ "c=".toList ++
      natToChars cost ++ ['$'] ++ encodeB64 (bgen password cost)) =
      '$' :: ("bcrypt".toList ++ '$' :: (("c=".toList ++ natToChars cost) ++
        '$' :: encodeB64 (bgen password cost))) := by
    simp [List.append_assoc]
  rw [h1]
  have hstep : ∀ r : List Char, splitOnChar '$' ('$' :: r) = [] :: splitOnChar '$' r := by
    intro r
    simp [splitOnChar]
  rw [hstep]
  rw [splitOnChar_append_sep '$' "bcrypt".toList _ (by decide)]
  have hcd : '$' ∉ "c=".toList ++ natToChars cost := by
    simp only [List.mem_append, not_or]
    exact ⟨by decide, dollar_not_mem_natToChars _⟩
  rw [splitOnChar_append_sep '$' _ _ hcd]
  rw [splitOnChar_of_not_mem '$' _ (encodeB64_no_dollar _)]

theorem paramString_opts_split (m t p : Nat) :
    splitOnChar ',' (argonParamString m t p) =
      ["v=".toList ++ natToChars argon2Version,
        "m=".toList ++ natToChars m,
        "t=".toList ++ natToChars t,
        "p=".toList ++ natToChars p] := by
  unfold argonParamString
  have h1 : ("v=".toList ++ natToChars argon2Version ++ ",m=".toList ++
      natToChars m ++ ",t=".toList ++ natToChars t ++ ",p=".toList ++
      natToChars p) =
      ("v=".toList ++ natToChars argon2Version) ++ ',' ::
        (("m=".toList ++ natToChars m) ++ ',' ::
          (("t=".toList ++ natToChars t) ++ ',' ::
            ("p=".toList ++ natToChars p))) := by
    simp [List.append_assoc]
  rw [h1]
  have hv : ',' ∉ "v=".toList ++ natToChars argon2Version := by
    simp only [List.mem_append, not_or]
    exact ⟨by decide, comma_not_mem_natToChars _⟩
  have hm : ',' ∉ "m=".toList ++ natToChars m := by
    simp only [List.mem_append, not_or]
    exact ⟨by decide, comma_not_mem_natToChars _⟩
  have ht : ',' ∉ "t=".toList ++ natToChars t := by
    simp only [List.mem_append, not_or]
    exact ⟨by decide, comma_not_mem_natToChars _⟩
  have hp : ',' ∉ "p=".toList ++ natToChars p := by
    simp only [List.mem_append, not_or]
    exact ⟨by decide, comma_not_mem_natToChars _⟩
  rw [splitOnChar_append_sep ',' _ _ hv]
  rw [splitOnChar_append_sep ',' _ _ hm]
  rw [splitOnChar_append_sep ',' _ _ ht]
  rw [splitOnChar_of_not_mem ',' _ hp]

theorem scanParams_roundtrip (m t p : Nat)
    (hm : m < 2 ^ 32) (ht : t < 2 ^ 32) (hp : p < 2 ^ 8) :
    scanParams (argonParamString m t p) = some (argon2Version, m, t, p) := by
  have hps : argonParamString m t p =
      "v=".toList ++ (natToChars argon2Version ++ (",m=".toList ++
        (natToChars m ++ (",t=".toList ++ (natToChars t ++
          (",p=".toList ++ natToChars p)))))) := by
    simp [argonParamString, List.append_assoc]
  rw [hps]
  unfold scanParams
  rw [stripLit_append]
  simp only [Option.some_bind]
  rw [parseNum_append argon2Version _ (show (','.isDigit = false) by decide)]
  simp only [Option.some_bind]
  rw [if_neg (by norm_num [argon2Version])]
  rw [stripLit_append]
  simp only [Option.some_bind]
  rw [parseNum_append m _ (show (','.isDigit = false) by decide)]
  simp only [Option.some_bind]
  rw [if_neg (by omega)]
  rw [stripLit_append]
  simp only [Option.some_bind]
  rw [parseNum_append t _ (show (','.isDigit = false) by decide)]
  simp only [Option.some_bind]
  rw [if_neg (by omega)]
  rw [stripLit_append]
  simp only [Option.some_bind]
  have hfin : parseNum (natToChars p) = some (p, []) := by
    have := parseNum_append p [] trivial
    simpa using this
  rw [hfin]
  simp only [Option.some_bind]
  rw [if_neg (by omega)]

theorem decodeArgon2idHash_generate (idKey : IdKeyFun) (params : Argon2Params)
    (salt : List Nat) (password : List Char)
    (hsalt : ∀ b ∈ salt, b < 256)
    (hkey : ∀ b ∈ idKey password salt params.iterations params.memory
      params.parallelism params.keyLength, b < 256)
    (hm : params.memory < 2 ^ 32) (ht : params.iterations < 2 ^ 32)
    (hp : params.parallelism < 2 ^ 8) :
    decodeArgon2idHash (generateArgon2idHash idKey params salt password) =
      (⟨params.memory, params.iterations, params.parallelism, salt.length,
        (idKey password salt params.iterations params.memory params.parallelism
          params.keyLength).length⟩,
        salt,
        idKey password salt params.iterations params.memory params.parallelism
          params.keyLength,
        none) := by
  simp only [decodeArgon2idHash, generateArgon2idHash_split,
    List.length_cons, List.length_nil, List.getD_cons_succ, List.getD_cons_zero,
    paramString_opts_split,
    scanParams_roundtrip params.memory params.iterations params.parallelism hm ht hp,
    decodeB64_encodeB64 salt hsalt, decodeB64_encodeB64 _ hkey]
  norm_num

theorem constantTimeCompare_self (x : List Nat) : constantTimeCompare x x = 1 :=
  (constantTimeCompare_eq_one_iff x x).mpr rfl

theorem decodeBcryptHash_generate (bgen : BcryptGenFun) (cost : Nat)
    (password : List Char) (hb : ∀ b ∈ bgen password cost, b < 256) :
    decodeBcryptHash (generateBcryptHash bgen cost password) =
      (bgen password cost, none) := by
  simp only [decodeBcryptHash, generateBcryptHash_split,
    List.length_cons, List.length_nil, List.getD_cons_succ, List.getD_cons_zero,
    decodeB64_encodeB64 _ hb]
  norm_num

/-- C1: for both supported algorithms, verifying the password that
produced an encoded hash succeeds: `GenerateHash` yields the encoder's
output without error, and `VerifyPassword` on that output returns
`(true, nil)` — the verifier re-derives the hash from the decoded
parameters and salt exactly as the encoder derived it.  The external
primitives enter as parameters, constrained only by their library
contracts: `argon2.IDKey` returns `keyLen` bytes, and
`bcrypt.CompareHashAndPassword` accepts a hash
`bcrypt.GenerateFromPassword` made from the same password. -/
theorem c1_generate_verify_roundtrip (idKey : IdKeyFun) (bgen : BcryptGenFun)
    (bcompare : BcryptCompareFun) (params : Argon2Params) (cost : Nat)
    (salt : List Nat) (password : List Char)
    (hsalt : ∀ b ∈ salt, b < 256)
    (hkey : ∀ b ∈ idKey password salt params.iterations params.memory
      params.parallelism params.keyLength, b < 256)
    (hkeylen : (idKey password salt params.iterations params.memory
      params.parallelism params.keyLength).length = params.keyLength)
    (hm : params.memory < 2 ^ 32) (ht : params.iterations < 2 ^ 32)
    (hp : params.parallelism < 2 ^ 8)
    (hbb : ∀ b ∈ bgen password cost, b < 256)
    (hbc : bcompare (bgen password cost) password = none) :
    GenerateHash idKey bgen params cost salt "argon2id".toList password =
      Outcome.ok (generateArgon2idHash idKey params salt password, none) ∧
    VerifyPassword idKey bcompare password
      (generateArgon2idHash idKey params salt password) =
      Outcome.ok (true, none) ∧
    GenerateHash idKey bgen params cost salt "bcrypt".toList password =
      Outcome.ok (generateBcryptHash bgen cost password, none) ∧
    VerifyPassword idKey bcompare password
      (generateBcryptHash bgen cost password) =
      Outcome.ok (true, none) := by
  refine ⟨by simp [GenerateHash], ?_, by simp [GenerateHash], ?_⟩
  · simp only [VerifyPassword, generateArgon2idHash_split,
      List.length_cons, List.length_nil, List.getD_cons_succ, List.getD_cons_zero]
    rw [if_pos (by norm_num)]
    simp only [if_true]
    simp only [verifyArgon2idHash,
      decodeArgon2idHash_generate idKey params salt password hsalt hkey hm ht hp]
    rw [hkeylen]
    rw [if_pos (constantTimeCompare_self _)]
  · simp only [VerifyPassword, generateBcryptHash_split,
      List.length_cons, List.length_nil, List.getD_cons_succ, List.getD_cons_zero]
    rw [if_pos (by norm_num)]
    simp only [if_true]
    simp only [verifyBcryptHash, decodeBcryptHash_generate bgen cost password hbb, hbc]
    rw [if_neg (by decide)]

/-- Witness for C1: the round trip holds at concrete inputs (password
`"pw"`, salt `[1, 2]`, memory 13, iterations 2, parallelism 1, key
length 3, bcrypt cost 4) with concrete stand-ins for the primitives. -/
theorem c1_witness :
    VerifyPassword idKey0 bcompare0 "pw".toList
      (generateArgon2idHash idKey0 ⟨13, 2, 1, 2, 3⟩ [1, 2] "pw".toList) =
      Outcome.ok (true, none) ∧
    VerifyPassword idKey0 bcompare0 "pw".toList
      (generateBcryptHash bgen0 4 "pw".toList) =
      Outcome.ok (true, none) :=
  ⟨(c1_generate_verify_roundtrip idKey0 bgen0 bcompare0 ⟨13, 2, 1, 2, 3⟩ 4
      [1, 2] "pw".toList (by decide) (by decide) (by decide) (by decide)
      (by decide) (by decide) (by decide) (by decide)).2.1,
   (c1_generate_verify_roundtrip idKey0 bgen0 bcompare0 ⟨13, 2, 1, 2, 3⟩ 4
      [1, 2] "pw".toList (by decide) (by decide) (by decide) (by decide)
      (by decide) (by decide) (by decide) (by decide)).2.2.2⟩

/-- Counterexample to C2 as stated: verifying the wrong password `"b"`
against a hash generated for `"aa"` returns `(false, some "invalid
password")`, not the claimed `(false, nil)` — the mismatch is surfaced
as an error. -/
theorem c2_counterexample :
    VerifyPassword idKey0 bcompare0 "b".toList
      (generateArgon2idHash idKey0 ⟨1, 1, 1, 1, 1⟩ [0] "aa".toList) =
      Outcome.ok (false, some errInvalidPassword) ∧
    VerifyPassword idKey0 bcompare0 "b".toList
      (generateArgon2idHash idKey0 ⟨1, 1, 1, 1, 1⟩ [0] "aa".toList) ≠
      Outcome.ok (false, none) := by
  decide

/-- C2 as amended: a non-matching password yields `match == false`
together with a **non-nil** error — `errors.New("invalid password")` on
the Argon2id path and the bcrypt primitive's error on the bcrypt path —
so errors are not reserved for structurally invalid input. -/
theorem c2_amended_mismatch_is_error (idKey : IdKeyFun)
    (bcompare : BcryptCompareFun) (password enc enc2 : List Char)
    (params : Argon2Params) (salt hash : List Nat) (e : List Char)
    (hdec : decodeArgon2idHash enc = (params, salt, hash, none))
    (hne : idKey password salt params.iterations params.memory
      params.parallelism params.keyLength ≠ hash)
    (hbc : bcompare (decodeBcryptHash enc2).1 password = some e) :
    verifyArgon2idHash idKey password enc =
      Outcome.ok (false, some errInvalidPassword) ∧
    verifyBcryptHash bcompare password enc2 = (false, some e) := by
  constructor
  · simp only [verifyArgon2idHash, hdec]
    rw [if_neg (fun hcmp =>
      hne ((constantTimeCompare_eq_one_iff _ _).mp hcmp).symm)]
  · simp only [verifyBcryptHash, hbc]

/-- Witness for the amended C2 at concrete inputs. -/
theorem c2_amended_witness :
    verifyArgon2idHash idKey0 "x".toList
      "$argon2id$v=19,m=1,t=1,p=1$AQI$BwcH".toList =
      Outcome.ok (false, some errInvalidPassword) ∧
    verifyBcryptHash bcompare0 "x".toList "xyz".toList =
      (false, some "hashedPassword is not the hash of the given password".toList) :=
  c2_amended_mismatch_is_error idKey0 bcompare0 "x".toList
    "$argon2id$v=19,m=1,t=1,p=1$AQI$BwcH".toList "xyz".toList
    ⟨1, 1, 1, 2, 3⟩ [1, 2] [7, 7, 7]
    "hashedPassword is not the hash of the given password".toList
    (by decide) (by decide) (by decide)

/-- C3: the comparison routine the verifier uses
(`subtle.ConstantTimeCompare`, embedded as `constantTimeCompare`) is
constant-time in the cost model that counts loop iterations: on
equal-length inputs the instrumented loop performs exactly `length`
byte operations — a quantity independent of where or whether the inputs
first differ — while computing the very accumulator the comparison
tests, and the comparison decides exact equality. -/
theorem c3_constant_time_compare (x y : List Nat) (h : x.length = y.length) :
    (ctLoopCount 0 0 x y).2 = x.length ∧
    (ctLoopCount 0 0 x y).1 = ctLoop 0 x y ∧
    (constantTimeCompare x y = 1 ↔ x = y) :=
  ⟨by simpa using ctLoopCount_count x y 0 0 h,
   ctLoopCount_fst x y 0 0,
   constantTimeCompare_eq_one_iff x y⟩

/-- Witness for C3: two equal-length triples that differ in their first
byte are compared in exactly three iterations. -/
theorem c3_witness :
    (ctLoopCount 0 0 [1, 2, 3] [9, 2, 3]).2 = ([1, 2, 3] : List Nat).length ∧
    (ctLoopCount 0 0 [1, 2, 3] [9, 2, 3]).1 = ctLoop 0 [1, 2, 3] [9, 2, 3] ∧
    (constantTimeCompare [1, 2, 3] [9, 2, 3] = 1 ↔
      ([1, 2, 3] : List Nat) = [9, 2, 3]) :=
  c3_constant_time_compare [1, 2, 3] [9, 2, 3] (by decide)

/-- C4 at the failing input: the input `"abc"` splits into one
`$`-field, not the four bcrypt expects, yet `decodeBcryptHash` returns a
**nil** error (the unassigned named return `err`), while the Argon2id
decoder on the same input does return its non-nil format error. -/
theorem c4_bcrypt_field_count_nil_error :
    (splitOnChar '$' "abc".toList).length ≠ 4 ∧
    decodeBcryptHash "abc".toList = ([], none) ∧
    (decodeArgon2idHash "abc".toList).2.2.2 = some errInvalidEncoding := by
  decide

/-- C5 at the failing input: a version-18 hash makes
`decodeArgon2idHash` return the `incompatible Argon2 version` error as
claimed, but `verifyArgon2idHash` feeds that error to `log.Fatal`,
terminating the process instead of propagating the error to its
caller. -/
theorem c5_version_gate_fatal :
    (decodeArgon2idHash "$argon2id$v=18,m=1,t=1,p=1$AAAA$AAAA".toList).2.2.2 =
      some errIncompatibleVersion ∧
    verifyArgon2idHash idKey0 "x".toList
      "$argon2id$v=18,m=1,t=1,p=1$AAAA$AAAA".toList =
      Outcome.fatal errIncompatibleVersion := by
  decide

/-- C6: whenever splitting the encoded hash on `$` yields at most two
fields, `VerifyPassword` returns `(false, nil)`; the result is the same
for every choice of the algorithm-specific routines, so none of them is
consulted. -/
theorem c6_short_input_false_nil (idKey : IdKeyFun)
    (bcompare : BcryptCompareFun) (password enc : List Char)
    (h : (splitOnChar '$' enc).length ≤ 2) :
    VerifyPassword idKey bcompare password enc = Outcome.ok (false, none) := by
  unfold VerifyPassword
  rw [if_neg (by omega)]

/-- Witness for C6: the dollar-free input `"abc"` splits into one field. -/
theorem c6_witness :
    (splitOnChar '$' "abc".toList).length ≤ 2 ∧
    VerifyPassword idKey0 bcompare0 "x".toList "abc".toList =
      Outcome.ok (false, none) :=
  ⟨by decide, c6_short_input_false_nil idKey0 bcompare0 "x".toList
    "abc".toList (by decide)⟩

theorem encodeB64_mem_alphabet (bs : List Nat) :
    ∀ c ∈ encodeB64 bs, c ∈ b64Alphabet := by
  intro c hc
  obtain ⟨k, hk⟩ := encodeB64_chars bs c hc
  rw [hk]
  exact b64Char_mem k

/-- C7: every encoded hash conforms to the canonical grammar.  Splitting
the Argon2id output on `$` yields exactly the empty prefix, the tag
`argon2id`, the parameter field `v=<version>,m=<memory>,t=<iterations>,
p=<parallelism>` (see `argonParamString`), the base64 salt and the
base64 hash; the bcrypt output has exactly the empty prefix, the tag
`bcrypt`, the field `c=<cost>` and the base64 hash with no separate
salt; both base64 fields use the unpadded standard alphabet. -/
theorem c7_encoded_hash_grammar (idKey : IdKeyFun) (bgen : BcryptGenFun)
    (params : Argon2Params) (cost : Nat) (salt : List Nat)
    (password : List Char) :
    splitOnChar '$' (generateArgon2idHash idKey params salt password) =
      [[], "argon2id".toList,
        argonParamString params.memory params.iterations params.parallelism,
        encodeB64 salt,
        encodeB64 (idKey password salt params.iterations params.memory
          params.parallelism params.keyLength)] ∧
    (∀ c ∈ encodeB64 salt, c ∈ b64Alphabet) ∧
    (∀ c ∈ encodeB64 (idKey password salt params.iterations params.memory
      params.parallelism params.keyLength), c ∈ b64Alphabet) ∧
    splitOnChar '$' (generateBcryptHash bgen cost password) =
      [[], "bcrypt".toList, "c=".toList ++ natToChars cost,
        encodeB64 (bgen password cost)] ∧
    (∀ c ∈ encodeB64 (bgen password cost), c ∈ b64Alphabet) :=
  ⟨generateArgon2idHash_split idKey params salt password,
   encodeB64_mem_alphabet salt,
   encodeB64_mem_alphabet _,
   generateBcryptHash_split bgen cost password,
   encodeB64_mem_alphabet _⟩

/-- C8 at the failing input: an algorithm outside the registry makes
both `GenerateHash` and `VerifyPassword` call `log.Fatalf`, terminating
the process, instead of returning an `UnsupportedAlgorithmError` value
to the caller. -/
theorem c8_unsupported_algorithm_fatal :
    GenerateHash idKey0 bgen0 ⟨1, 1, 1, 1, 1⟩ 4 [0] "scrypt".toList
      "pw".toList = Outcome.fatal (fatalUnsupported "scrypt".toList) ∧
    VerifyPassword idKey0 bcompare0 "pw".toList "$scrypt$a$b".toList =
      Outcome.fatal (fatalUnsupported "scrypt".toList) := by
  decide

/-- C9: whenever the Argon2id decoder succeeds, the `saltLength` and
`keyLength` fields of the decoded parameters are the byte lengths of the
decoded salt and hash — they are assigned from `len(salt)` and
`len(hash)` after base64 decoding, never from a value embedded in the
string. -/
theorem c9_lengths_from_decoded_bytes (enc : List Char)
    (params : Argon2Params) (salt hash : List Nat)
    (h : decodeArgon2idHash enc = (params, salt, hash, none)) :
    params.saltLength = salt.length ∧ params.keyLength = hash.length := by
  unfold decodeArgon2idHash at h
  simp only [] at h
  split at h
  · simp at h
  · split at h
    · simp at h
    · split at h
      · simp at h
      · split at h
        · simp at h
        · split at h
          · simp at h
          · split at h
            · simp at h
            · simp only [Prod.mk.injEq] at h
              obtain ⟨hp, hs, hh, _⟩ := h
              subst hp
              subst hs
              subst hh
              exact ⟨rfl, rfl⟩

/-- Witness for C9 at a concrete well-formed hash whose salt decodes to
two bytes and whose hash decodes to three. -/
theorem c9_witness :
    decodeArgon2idHash "$argon2id$v=19,m=1,t=1,p=1$AQI$AQID".toList =
      ((⟨1, 1, 1, 2, 3⟩ : Argon2Params), ([1, 2] : List Nat),
        ([1, 2, 3] : List Nat), (none : Option (List Char))) ∧
    ((⟨1, 1, 1, 2, 3⟩ : Argon2Params).saltLength = ([1, 2] : List Nat).length ∧
      (⟨1, 1, 1, 2, 3⟩ : Argon2Params).keyLength = ([1, 2, 3] : List Nat).length) :=
  ⟨by decide,
   c9_lengths_from_decoded_bytes "$argon2id$v=19,m=1,t=1,p=1$AQI$AQID".toList
     ⟨1, 1, 1, 2, 3⟩ [1, 2] [1, 2, 3] (by decide)⟩

/-- C10: a positive match never comes with a non-nil error: whenever
`VerifyPassword` returns `ok (true, e)` — on either algorithm path, for
any choice of the external primitives — the error `e` is `nil`. -/
theorem c10_match_implies_nil_error (idKey : IdKeyFun)
    (bcompare : BcryptCompareFun) (password enc : List Char)
    (e : Option (List Char))
    (h : VerifyPassword idKey bcompare password enc = Outcome.ok (true, e)) :
    e = none := by
  unfold VerifyPassword at h
  simp only [] at h
  split at h
  · split at h
    · unfold verifyArgon2idHash at h
      split at h
      · simp at h
      · simp only [] at h
        split at h
        · simp at h
          exact h.symm
        · simp at h
    · split at h
      · unfold verifyBcryptHash at h
        simp only [Outcome.ok.injEq] at h
        split at h
        · simp at h
        · simp at h
          exact h.symm
      · simp at h
  · simp at h

/-- Witness for C10: a concrete verification that returns
`ok (true, nil)`, to which the theorem applies. -/
theorem c10_witness :
    VerifyPassword idKey0 bcompare0 []
      "$argon2id$v=19,m=1,t=1,p=1$AQI$AAAA".toList =
      Outcome.ok (true, none) ∧
    (none : Option (List Char)) = none :=
  ⟨by decide,
   c10_match_implies_nil_error idKey0 bcompare0 []
     "$argon2id$v=19,m=1,t=1,p=1$AQI$AAAA".toList none (by decide)⟩

end Goidp
